import Mathlib

/-!
Shallow embedding of the YDS scheduler (`yds/yds.py`).

Real-valued quantities of the program are modelled by exact rationals.
Python exceptions (`max` on an empty sequence, the fall-through `raise`
in `Task.cut`, `ZeroDivisionError` in the assignment loop) are modelled
by `Option`: a run that would raise returns `none`.  The `while` loop of
`calc_scheduling` is modelled by fuel-indexed recursion; the fuel
`tasks.length` is enough whenever the loop removes at least one task per
iteration, which is proved below for valid inputs.  Python's stable
`sorted` is modelled by `List.insertionSort`, which is also stable.
-/

namespace YDS

/-- A task, as in `Task.__init__`: identifier, release time, deadline,
workload `c`, and the accumulated timeline-compression `offset`
(initially `0.0`). -/
structure Task where
  nr : Nat
  release : ℚ
  dead : ℚ
  c : ℚ
  offset : ℚ
  deriving DecidableEq

/-- One scheduled segment, as in `Execution.__init__`. The Python field
`end` is called `stop` here (`end` is a Lean keyword). -/
structure Execution where
  nr : Nat
  start : ℚ
  stop : ℚ
  frequency : ℚ
  deriving DecidableEq

/-- A candidate interval together with the tasks contained in it, as in
`Interval.__init__`. The Python field `end` is called `stop` here. -/
structure Interval where
  start : ℚ
  stop : ℚ
  tasks : List Task
  deriving DecidableEq

/-- `Interval.intensity`: the sum of the workloads of the contained
tasks divided by the interval length (computed in `Interval.__init__`). -/
def Interval.intensity (i : Interval) : ℚ :=
  (i.tasks.map Task.c).sum / (i.stop - i.start)

/-- `Task.cut`: excise the processed interval `[cstart, cend)` from the
task's window.  The five `if` cases mirror the source exactly; the
final `raise Exception("uncatched, please file issue")` is `none`. -/
def Task.cut (t : Task) (cstart cend : ℚ) : Option Task :=
  if t.release ≥ cend then
    some { t with dead := t.dead - (cend - cstart),
                  release := t.release - (cend - cstart),
                  offset := t.offset + (cend - cstart) }
  else if t.dead ≤ cstart then
    some t
  else if t.release < cstart ∧ t.dead > cend then
    some { t with dead := t.dead - (cend - cstart) }
  else if t.dead > cstart ∧ t.release < cstart then
    some { t with dead := cstart }
  else if t.release < cend ∧ t.dead > cend then
    some { t with offset := t.offset + (cend - cstart),
                  release := cstart,
                  dead := t.dead - (cend - cstart) }
  else
    none

/-- The containment test of `get_intervals`:
`task.release >= start and task.dead <= end`. -/
def containedIn (cstart cend : ℚ) (t : Task) : Bool :=
  decide (t.release ≥ cstart ∧ t.dead ≤ cend)

/-- `get_intervals`: every pair of a release time and a deadline with
`start < end`, each with its contained tasks.  Python's `set` of floats
is modelled by `List.dedup`. -/
def get_intervals (tasks : List Task) : List Interval :=
  (((tasks.map Task.release).dedup).map (fun s =>
    ((tasks.map Task.dead).dedup).filterMap (fun e =>
      if s < e then
        some ⟨s, e, tasks.filter (containedIn s e)⟩
      else
        none))).flatten

/-- `max_intensity_interval`: Python's `max(intervals, key=intensity)`,
which returns the first element of maximal key and raises on an empty
list (modelled by `none`). -/
def max_intensity_interval (intervals : List Interval) : Option Interval :=
  match intervals with
  | [] => none
  | x :: xs =>
      some (xs.foldl (fun acc i => if acc.intensity < i.intensity then i else acc) x)

/-- The `for task in to_execute` loop of `calc_scheduling`: walk the
sorted contained tasks, carrying the running `offset` (initially the
interval's start), and emit one `Execution` per task. -/
def assignExecs (freq c_sum int_length : ℚ) : List Task → ℚ → List Execution
  | [], _ => []
  | t :: ts, off =>
      ⟨t.nr, off + t.offset, off + t.offset + (t.c / c_sum) * int_length, freq⟩ ::
        assignExecs freq c_sum int_length ts (off + (t.c / c_sum) * int_length)

/-- The list comprehension `[task.cut(start, end) for task in tasks]`;
a `raise` inside aborts the whole run (`none`). -/
def cutAll (cstart cend : ℚ) : List Task → Option (List Task)
  | [] => some []
  | t :: ts =>
      match t.cut cstart cend, cutAll cstart cend ts with
      | some t2, some ts2 => some (t2 :: ts2)
      | _, _ => none

/-- The cut phase of one loop iteration: the tasks contained in the
processed interval have been removed one by one (`tasks.remove(task)`),
leaving exactly the non-contained tasks in order, and each survivor is
cut. -/
def cutRemaining (tasks : List Task) (cstart cend : ℚ) : Option (List Task) :=
  cutAll cstart cend (tasks.filter (fun t => !(containedIn cstart cend t)))

/-- One iteration of the `while` loop of `calc_scheduling`: pick the
maximum-intensity interval, sort its tasks earliest-deadline-first,
emit their Executions, remove them, and cut the remaining tasks.
`ZeroDivisionError` (some task divides by a zero `c_sum`) is `none`. -/
def step (tasks : List Task) : Option (List Execution × List Task) :=
  match max_intensity_interval (get_intervals tasks) with
  | none => none
  | some M =>
      let to_execute := M.tasks.insertionSort (fun a b => a.dead ≤ b.dead)
      let c_sum := (to_execute.map Task.c).sum
      if to_execute ≠ [] ∧ c_sum = 0 then
        none
      else
        match cutRemaining tasks M.start M.stop with
        | none => none
        | some newTasks =>
            some (assignExecs M.intensity c_sum (M.stop - M.start) to_execute M.start,
                  newTasks)

/-- Fuel-indexed unfolding of the `while len(tasks) > 0` loop,
accumulating the `scheduling` list. -/
def calcAux : Nat → List Task → List Execution → Option (List Execution)
  | _, [], acc => some acc
  | 0, _ :: _, _ => none
  | n + 1, t :: ts, acc =>
      match step (t :: ts) with
      | none => none
      | some (execs, newTasks) => calcAux n newTasks (acc ++ execs)

/-- `calc_scheduling`: run the loop, then return the accumulated
Executions sorted by start time. -/
def calc_scheduling (tasks : List Task) : Option (List Execution) :=
  (calcAux tasks.length tasks []).map
    (fun s => s.insertionSort (fun a b => a.start ≤ b.start))

/-- A task that satisfies the input contract: `release < deadline` and
`workload > 0`. -/
def validTask (t : Task) : Prop :=
  t.release < t.dead ∧ 0 < t.c

instance (t : Task) : Decidable (validTask t) := by
  unfold validTask; infer_instance

/-! ### The spec's cutting table (§4.4), modelled from the spec's words

These definitions transcribe the five rows of the table, for comparison
with `Task.cut` (a refinement claim): `cutSpecCond k` is the relation in
row `k`, `cutSpecAction k` the action of row `k`. -/

/-- Condition of row `k` of the spec's cutting table: row 0 is "task
window entirely after the interval", row 1 "entirely before", row 2
"interval entirely inside the task window", row 3 "task window overlaps
the interval's start (not covering its end)", row 4 "task window
overlaps the interval's end (not covering its start)". -/
def cutSpecCond (k : Fin 5) (t : Task) (cstart cend : ℚ) : Prop :=
  match k with
  | 0 => t.release ≥ cend
  | 1 => t.dead ≤ cstart
  | 2 => t.release < cstart ∧ t.dead > cend
  | 3 => t.dead > cstart ∧ t.release < cstart ∧ t.dead ≤ cend
  | 4 => t.release < cend ∧ t.dead > cend ∧ t.release ≥ cstart

instance (k : Fin 5) (t : Task) (cstart cend : ℚ) :
    Decidable (cutSpecCond k t cstart cend) := by
  unfold cutSpecCond
  match k with
  | 0 => exact inferInstance
  | 1 => exact inferInstance
  | 2 => exact inferInstance
  | 3 => exact inferInstance
  | 4 => exact inferInstance

/-- Action of row `k` of the spec's cutting table
(`distance = cend - cstart`). -/
def cutSpecAction (k : Fin 5) (t : Task) (cstart cend : ℚ) : Task :=
  match k with
  | 0 => { t with release := t.release - (cend - cstart),
                  dead := t.dead - (cend - cstart),
                  offset := t.offset + (cend - cstart) }
  | 1 => t
  | 2 => { t with dead := t.dead - (cend - cstart) }
  | 3 => { t with dead := cstart }
  | 4 => { t with offset := t.offset + (cend - cstart),
                  release := cstart,
                  dead := t.dead - (cend - cstart) }

/-! ### Lemmas about `Task.cut` -/

/-- If `Task.cut` reaches the fall-through `raise`, the task was
contained in the cut interval. -/
theorem cut_eq_none_implies_contained (t : Task) (cstart cend : ℚ)
    (h : t.cut cstart cend = none) :
    t.release ≥ cstart ∧ t.dead ≤ cend := by
  unfold Task.cut at h
  split_ifs at h with h1 h2 h3 h4 h5
  have hr1 : t.release < cend := lt_of_not_le h1
  have hd2 : cstart < t.dead := lt_of_not_le h2
  constructor
  · by_contra hr
    exact h4 ⟨hd2, lt_of_not_le hr⟩
  · by_contra hd
    exact h5 ⟨hr1, lt_of_not_le hd⟩

/-- A task not contained in the cut interval never hits the
fall-through `raise`. -/
theorem cut_isSome_of_not_contained (t : Task) (cstart cend : ℚ)
    (h : ¬(t.release ≥ cstart ∧ t.dead ≤ cend)) :
    (t.cut cstart cend).isSome := by
  cases hc : t.cut cstart cend with
  | none => exact absurd (cut_eq_none_implies_contained t cstart cend hc) h
  | some t2 => rfl

/-- `Task.cut` never changes the identifier or the workload. -/
theorem cut_preserves_nr_c {t t2 : Task} {cstart cend : ℚ}
    (h : t.cut cstart cend = some t2) :
    t2.nr = t.nr ∧ t2.c = t.c := by
  unfold Task.cut at h
  split_ifs at h <;> cases h <;> exact ⟨rfl, rfl⟩

/-- `Task.cut` preserves strictness of the task window: a task with
`release < dead` cut by a nondegenerate interval keeps `release < dead`. -/
theorem cut_preserves_window {t t2 : Task} {cstart cend : ℚ}
    (hw : t.release < t.dead)
    (h : t.cut cstart cend = some t2) :
    t2.release < t2.dead := by
  unfold Task.cut at h
  split_ifs at h with h1 h2 h3 h4 h5 <;> cases h
  · simpa using by linarith
  · exact hw
  · simp only []
    obtain ⟨ha, hb⟩ := h3
    show t.release < t.dead - (cend - cstart)
    linarith
  · obtain ⟨ha, hb⟩ := h4
    show t.release < cstart
    exact hb
  · obtain ⟨ha, hb⟩ := h5
    show cstart < t.dead - (cend - cstart)
    linarith

/-! ### Lemmas about `cutAll` and `cutRemaining` -/

theorem cutAll_isSome {cstart cend : ℚ} :
    ∀ {l : List Task}, (∀ t ∈ l, (t.cut cstart cend).isSome) →
      (cutAll cstart cend l).isSome := by
  intro l
  induction l with
  | nil => intro _; rfl
  | cons t ts ih =>
      intro h
      have ht := h t (List.mem_cons_self t ts)
      have hts := ih (fun x hx => h x (List.mem_cons_of_mem t hx))
      unfold cutAll
      cases hct : t.cut cstart cend with
      | none => rw [hct] at ht; exact absurd ht (by simp)
      | some t2 =>
          cases hcts : cutAll cstart cend ts with
          | none => rw [hcts] at hts; exact absurd hts (by simp)
          | some ts2 => rfl

theorem cutAll_map_nr_c {cstart cend : ℚ} :
    ∀ {l l2 : List Task}, cutAll cstart cend l = some l2 →
      l2.map (fun t => (t.nr, t.c)) = l.map (fun t => (t.nr, t.c)) := by
  intro l
  induction l with
  | nil => intro l2 h; cases h; rfl
  | cons t ts ih =>
      intro l2 h
      unfold cutAll at h
      cases hct : t.cut cstart cend with
      | none => rw [hct] at h; cases h
      | some t2 =>
          rw [hct] at h
          cases hcts : cutAll cstart cend ts with
          | none => rw [hcts] at h; cases h
          | some ts2 =>
              rw [hcts] at h
              cases h
              obtain ⟨hnr, hc⟩ := cut_preserves_nr_c hct
              simp [hnr, hc, ih hcts]

theorem cutAll_length {cstart cend : ℚ} {l l2 : List Task}
    (h : cutAll cstart cend l = some l2) : l2.length = l.length := by
  have := cutAll_map_nr_c h
  have h1 : (l2.map (fun t => (t.nr, t.c))).length = (l.map (fun t => (t.nr, t.c))).length := by
    rw [this]
  simpa using h1

/-- Transport a property through `cutAll`: every output task is the cut
of some input task. -/
theorem cutAll_forall {cstart cend : ℚ} (P : Task → Prop) :
    ∀ {l l2 : List Task}, cutAll cstart cend l = some l2 →
      (∀ t ∈ l, ∀ t2, t.cut cstart cend = some t2 → P t2) →
      ∀ t2 ∈ l2, P t2 := by
  intro l
  induction l with
  | nil => intro l2 h _; cases h; intro t2 ht2; cases ht2
  | cons t ts ih =>
      intro l2 h hP
      unfold cutAll at h
      cases hct : t.cut cstart cend with
      | none => rw [hct] at h; cases h
      | some t2 =>
          rw [hct] at h
          cases hcts : cutAll cstart cend ts with
          | none => rw [hcts] at h; cases h
          | some ts2 =>
              rw [hcts] at h
              cases h
              intro x hx
              rcases List.mem_cons.mp hx with hx | hx
              · subst hx
                exact hP t (List.mem_cons_self t ts) x hct
              · exact ih hcts (fun y hy => hP y (List.mem_cons_of_mem t hy)) x hx

theorem cutRemaining_isSome (tasks : List Task) (cstart cend : ℚ) :
    (cutRemaining tasks cstart cend).isSome := by
  unfold cutRemaining
  apply cutAll_isSome
  intro t ht
  have hmem := List.mem_filter.mp ht
  apply cut_isSome_of_not_contained
  intro hcont
  have : containedIn cstart cend t = true := by
    simp [containedIn]
    exact ⟨hcont.1, hcont.2⟩
  rw [this] at hmem
  simpa using hmem.2

/-! ### Lemmas about `get_intervals` -/

/-- Every interval produced by `get_intervals` is a nondegenerate pair
of a release and a deadline, carrying exactly the contained tasks. -/
theorem mem_get_intervals_sound {tasks : List Task} {I : Interval}
    (h : I ∈ get_intervals tasks) :
    I.start < I.stop ∧ I.tasks = tasks.filter (containedIn I.start I.stop) := by
  unfold get_intervals at h
  rcases List.mem_flatten.mp h with ⟨l, hl, hIl⟩
  rcases List.mem_map.mp hl with ⟨s, _, hsl⟩
  subst hsl
  rcases List.mem_filterMap.mp hIl with ⟨e, _, hIe⟩
  by_cases hse : s < e
  · rw [if_pos hse] at hIe
    cases hIe
    exact ⟨hse, rfl⟩
  · rw [if_neg hse] at hIe
    cases hIe

/-- Each task of the list contributes its own trivial candidate
interval, provided its window is nondegenerate. -/
theorem self_interval_mem_get_intervals {tasks : List Task} {t : Task}
    (ht : t ∈ tasks) (hw : t.release < t.dead) :
    (⟨t.release, t.dead, tasks.filter (containedIn t.release t.dead)⟩ : Interval) ∈
      get_intervals tasks := by
  unfold get_intervals
  apply List.mem_flatten.mpr
  refine ⟨((tasks.map Task.dead).dedup).filterMap (fun e =>
    if t.release < e then
      some ⟨t.release, e, tasks.filter (containedIn t.release e)⟩
    else none), ?_, ?_⟩
  · apply List.mem_map.mpr
    refine ⟨t.release, ?_, rfl⟩
    exact List.mem_dedup.mpr (List.mem_map.mpr ⟨t, ht, rfl⟩)
  · apply List.mem_filterMap.mpr
    refine ⟨t.dead, ?_, ?_⟩
    · exact List.mem_dedup.mpr (List.mem_map.mpr ⟨t, ht, rfl⟩)
    · rw [if_pos hw]

/-! ### Lemmas about `max_intensity_interval` -/

theorem foldl_max_mem (xs : List Interval) (x : Interval) :
    xs.foldl (fun acc i => if acc.intensity < i.intensity then i else acc) x ∈ x :: xs := by
  induction xs generalizing x with
  | nil => simp
  | cons y ys ih =>
      simp only [List.foldl_cons]
      by_cases h : x.intensity < y.intensity
      · rw [if_pos h]
        have := ih y
        rcases List.mem_cons.mp this with h2 | h2
        · rw [h2]; simp
        · simp [h2]
      · rw [if_neg h]
        have := ih x
        rcases List.mem_cons.mp this with h2 | h2
        · rw [h2]; simp
        · simp [h2]

theorem foldl_max_ge (xs : List Interval) (x : Interval) :
    ∀ I ∈ x :: xs,
      I.intensity ≤
        (xs.foldl (fun acc i => if acc.intensity < i.intensity then i else acc) x).intensity := by
  induction xs generalizing x with
  | nil =>
      intro I hI
      have hIx : I = x := by simpa using hI
      simp only [List.foldl_nil]
      rw [hIx]
  | cons y ys ih =>
      intro I hI
      simp only [List.foldl_cons]
      set z := if x.intensity < y.intensity then y else x with hz
      have hxz : x.intensity ≤ z.intensity := by
        rw [hz]; split_ifs with h
        · exact le_of_lt h
        · exact le_refl _
      have hyz : y.intensity ≤ z.intensity := by
        rw [hz]; split_ifs with h
        · exact le_refl _
        · exact le_of_not_lt h
      have hzfold : z.intensity ≤
          (ys.foldl (fun acc i => if acc.intensity < i.intensity then i else acc) z).intensity :=
        ih z z (List.mem_cons_self z ys)
      rcases List.mem_cons.mp hI with h1 | h1
      · rw [h1]; exact le_trans hxz hzfold
      rcases List.mem_cons.mp h1 with h2 | h2
      · rw [h2]; exact le_trans hyz hzfold
      · exact ih z I (List.mem_cons_of_mem z h2)

theorem max_intensity_interval_mem {l : List Interval} {M : Interval}
    (h : max_intensity_interval l = some M) : M ∈ l := by
  cases l with
  | nil => cases h
  | cons x xs =>
      unfold max_intensity_interval at h
      cases h
      exact foldl_max_mem xs x

theorem max_intensity_interval_ge {l : List Interval} {M : Interval}
    (h : max_intensity_interval l = some M) :
    ∀ I ∈ l, I.intensity ≤ M.intensity := by
  cases l with
  | nil => cases h
  | cons x xs =>
      unfold max_intensity_interval at h
      cases h
      exact foldl_max_ge xs x

theorem max_intensity_interval_isSome {l : List Interval} (h : l ≠ []) :
    (max_intensity_interval l).isSome := by
  cases l with
  | nil => exact absurd rfl h
  | cons x xs => rfl

/-! ### Lemmas about `assignExecs` and `step` -/

/-- The identifying pair of a task: identifier and workload. -/
def taskKey (t : Task) : Nat × ℚ := (t.nr, t.c)

/-- The identifying pair of an execution: identifier and delivered work
(segment duration scaled by frequency). -/
def execKey (e : Execution) : Nat × ℚ := (e.nr, (e.stop - e.start) * e.frequency)

theorem assignExecs_map_execKey (freq c_sum int_length : ℚ) :
    ∀ (l : List Task) (off : ℚ),
      (assignExecs freq c_sum int_length l off).map execKey =
        l.map (fun t => (t.nr, (t.c / c_sum * int_length) * freq)) := by
  intro l
  induction l with
  | nil => intro off; rfl
  | cons t ts ih =>
      intro off
      simp only [assignExecs, List.map_cons, execKey, ih]
      congr 2
      ring

theorem step_eq {tasks : List Task} {M : Interval}
    (hM : max_intensity_interval (get_intervals tasks) = some M) :
    step tasks =
      (if M.tasks.insertionSort (fun a b => a.dead ≤ b.dead) ≠ [] ∧
          ((M.tasks.insertionSort (fun a b => a.dead ≤ b.dead)).map Task.c).sum = 0 then
        none
      else
        match cutRemaining tasks M.start M.stop with
        | none => none
        | some newTasks =>
            some (assignExecs M.intensity
                    ((M.tasks.insertionSort (fun a b => a.dead ≤ b.dead)).map Task.c).sum
                    (M.stop - M.start)
                    (M.tasks.insertionSort (fun a b => a.dead ≤ b.dead)) M.start,
                  newTasks)) := by
  unfold step
  rw [hM]

theorem step_keys {tasks : List Task} {execs : List Execution} {newTasks : List Task}
    (h : step tasks = some (execs, newTasks)) :
    List.Perm (execs.map execKey ++ newTasks.map taskKey) (tasks.map taskKey) := by
  cases hM : max_intensity_interval (get_intervals tasks) with
  | none => unfold step at h; rw [hM] at h; cases h
  | some M =>
      rw [step_eq hM] at h
      obtain ⟨hlt, hMtasks⟩ := mem_get_intervals_sound (max_intensity_interval_mem hM)
      have hperm : List.Perm (M.tasks.insertionSort (fun a b => a.dead ≤ b.dead)) M.tasks :=
        List.perm_insertionSort _ _
      by_cases hg : M.tasks.insertionSort (fun a b => a.dead ≤ b.dead) ≠ [] ∧
          ((M.tasks.insertionSort (fun a b => a.dead ≤ b.dead)).map Task.c).sum = 0
      · rw [if_pos hg] at h; cases h
      · rw [if_neg hg] at h
        cases hcut : cutRemaining tasks M.start M.stop with
        | none => rw [hcut] at h; cases h
        | some nt =>
            rw [hcut] at h
            cases h
            have hnt : newTasks.map taskKey =
                (tasks.filter (fun t => !(containedIn M.start M.stop t))).map taskKey :=
              cutAll_map_nr_c hcut
            have hfinal :
                List.Perm ((tasks.filter (containedIn M.start M.stop)).map taskKey ++
                  (tasks.filter (fun t => !(containedIn M.start M.stop t))).map taskKey)
                  (tasks.map taskKey) := by
              rw [← List.map_append]
              exact (List.filter_append_perm _ tasks).map taskKey
            by_cases hTE : M.tasks.insertionSort (fun a b => a.dead ≤ b.dead) = []
            · have hMnil : M.tasks = [] := by
                have hp := hperm
                rw [hTE] at hp
                exact (List.Perm.nil_eq hp).symm
              rw [hTE]
              simp only [assignExecs, List.map_nil, List.nil_append]
              rw [hnt]
              have hfnil : (tasks.filter (containedIn M.start M.stop)).map taskKey = [] := by
                rw [← hMtasks, hMnil]; rfl
              rw [hfnil] at hfinal
              simpa using hfinal
            · have hcs : ((M.tasks.insertionSort (fun a b => a.dead ≤ b.dead)).map Task.c).sum ≠ 0 := by
                intro hz
                exact hg ⟨hTE, hz⟩
              have hL : M.stop - M.start ≠ 0 := sub_ne_zero_of_ne (ne_of_gt hlt)
              have hsum : ((M.tasks.insertionSort (fun a b => a.dead ≤ b.dead)).map Task.c).sum =
                  (M.tasks.map Task.c).sum := (hperm.map Task.c).sum_eq
              have hintensity : M.intensity =
                  ((M.tasks.insertionSort (fun a b => a.dead ≤ b.dead)).map Task.c).sum /
                    (M.stop - M.start) := by
                rw [hsum]; rfl
              have hexecmap :
                  (assignExecs M.intensity
                    ((M.tasks.insertionSort (fun a b => a.dead ≤ b.dead)).map Task.c).sum
                    (M.stop - M.start)
                    (M.tasks.insertionSort (fun a b => a.dead ≤ b.dead)) M.start).map execKey =
                  (M.tasks.insertionSort (fun a b => a.dead ≤ b.dead)).map taskKey := by
                rw [assignExecs_map_execKey]
                apply List.map_congr_left
                intro t _
                unfold taskKey
                rw [hintensity]
                congr 1
                field_simp
              rw [hexecmap, hnt]
              refine List.Perm.trans
                (((hperm.map taskKey).append_right _) :
                  List.Perm _ (M.tasks.map taskKey ++
                    (tasks.filter (fun t => !(containedIn M.start M.stop t))).map taskKey)) ?_
              rw [hMtasks]
              exact hfinal

/-! ### Validity preservation, progress and success of `step` -/

theorem length_filter_not_lt {α : Type} {p : α → Bool} :
    ∀ {l : List α} {x : α}, x ∈ l → p x = true →
      (l.filter (fun a => !(p a))).length < l.length := by
  intro l
  induction l with
  | nil => intro x hx; cases hx
  | cons a t ih =>
      intro x hx hpx
      rcases List.mem_cons.mp hx with hxa | hxt
      · subst hxa
        rw [List.filter_cons]
        rw [hpx]
        simp only [Bool.not_true, cond_false, List.length_cons]
        calc (t.filter (fun a => !(p a))).length ≤ t.length := List.length_filter_le _ _
          _ < t.length + 1 := Nat.lt_succ_self _
      · rw [List.filter_cons]
        by_cases hpa : p a = true
        · rw [hpa]
          simp only [Bool.not_true, cond_false, List.length_cons]
          calc (t.filter (fun a => !(p a))).length ≤ t.length := List.length_filter_le _ _
            _ < t.length + 1 := Nat.lt_succ_self _
        · rw [Bool.not_eq_true] at hpa
          rw [hpa]
          simp only [Bool.not_false, cond_true, List.length_cons]
          exact Nat.succ_lt_succ (ih hxt hpx)

theorem step_preserves_valid {tasks : List Task} {execs : List Execution}
    {newTasks : List Task} (hv : ∀ t ∈ tasks, validTask t)
    (h : step tasks = some (execs, newTasks)) :
    ∀ t ∈ newTasks, validTask t := by
  cases hM : max_intensity_interval (get_intervals tasks) with
  | none => unfold step at h; rw [hM] at h; cases h
  | some M =>
      rw [step_eq hM] at h
      split_ifs at h
      cases hcut : cutRemaining tasks M.start M.stop with
      | none => rw [hcut] at h; cases h
      | some nt =>
          rw [hcut] at h
          cases h
          unfold cutRemaining at hcut
          apply cutAll_forall validTask hcut
          intro t ht t2 ht2
          have htasks : t ∈ tasks := List.mem_of_mem_filter ht
          obtain ⟨hw, hc⟩ := hv t htasks
          obtain ⟨hnr, hcc⟩ := cut_preserves_nr_c ht2
          exact ⟨cut_preserves_window hw ht2, by rw [hcc]; exact hc⟩

/-- For a valid, non-empty task set, the critical interval contains at
least one task: its intensity is at least that of any single task's own
interval, which is positive. -/
theorem max_interval_tasks_ne_nil {tasks : List Task} {M : Interval}
    (hv : ∀ t ∈ tasks, validTask t) (hne : tasks ≠ [])
    (hM : max_intensity_interval (get_intervals tasks) = some M) :
    M.tasks ≠ [] := by
  obtain ⟨t0, ht0⟩ := List.exists_mem_of_ne_nil tasks hne
  obtain ⟨hw0, hc0⟩ := hv t0 ht0
  have hI0mem := self_interval_mem_get_intervals ht0 hw0
  have ht0f : t0 ∈ tasks.filter (containedIn t0.release t0.dead) := by
    apply List.mem_filter.mpr
    refine ⟨ht0, ?_⟩
    simp [containedIn]
  have hI0pos : 0 < (Interval.intensity ⟨t0.release, t0.dead,
      tasks.filter (containedIn t0.release t0.dead)⟩) := by
    unfold Interval.intensity
    apply div_pos
    · apply List.sum_pos
      · intro c hc
        rcases List.mem_map.mp hc with ⟨u, hu, huc⟩
        have hut : u ∈ tasks := List.mem_of_mem_filter hu
        rw [← huc]
        exact (hv u hut).2
      · intro hmapnil
        rw [List.map_eq_nil_iff] at hmapnil
        have hfe : tasks.filter (containedIn t0.release t0.dead) = [] := hmapnil
        rw [hfe] at ht0f
        cases ht0f
    · simpa using hw0
  have hge := max_intensity_interval_ge hM _ hI0mem
  intro hMnil
  have hzero : M.intensity = 0 := by
    unfold Interval.intensity
    rw [hMnil]
    simp
  rw [hzero] at hge
  exact absurd (lt_of_lt_of_le hI0pos hge) (lt_irrefl 0)

theorem step_isSome {tasks : List Task} (hv : ∀ t ∈ tasks, validTask t)
    (hne : tasks ≠ []) : (step tasks).isSome := by
  obtain ⟨t0, ht0⟩ := List.exists_mem_of_ne_nil tasks hne
  obtain ⟨hw0, hc0⟩ := hv t0 ht0
  have hI0mem := self_interval_mem_get_intervals ht0 hw0
  have hints : get_intervals tasks ≠ [] := List.ne_nil_of_mem hI0mem
  obtain ⟨M, hM⟩ := Option.isSome_iff_exists.mp (max_intensity_interval_isSome hints)
  rw [step_eq hM]
  have hguard : ¬(M.tasks.insertionSort (fun a b => a.dead ≤ b.dead) ≠ [] ∧
      ((M.tasks.insertionSort (fun a b => a.dead ≤ b.dead)).map Task.c).sum = 0) := by
    rintro ⟨hTE, hzero⟩
    have hpos : 0 < ((M.tasks.insertionSort (fun a b => a.dead ≤ b.dead)).map Task.c).sum := by
      apply List.sum_pos
      · intro c hc
        rcases List.mem_map.mp hc with ⟨u, hu, huc⟩
        have huM : u ∈ M.tasks := (List.mem_insertionSort _).mp hu
        have hut : u ∈ tasks := by
          have hMtasks := (mem_get_intervals_sound (max_intensity_interval_mem hM)).2
          rw [hMtasks] at huM
          exact List.mem_of_mem_filter huM
        rw [← huc]
        exact (hv u hut).2
      · intro hmapnil
        rw [List.map_eq_nil_iff] at hmapnil
        exact hTE hmapnil
    rw [hzero] at hpos
    exact absurd hpos (lt_irrefl 0)
  rw [if_neg hguard]
  cases hcut : cutRemaining tasks M.start M.stop with
  | none =>
      have := cutRemaining_isSome tasks M.start M.stop
      rw [hcut] at this
      cases this
  | some nt => rfl

theorem step_shrinks {tasks : List Task} {execs : List Execution}
    {newTasks : List Task} (hv : ∀ t ∈ tasks, validTask t) (hne : tasks ≠ [])
    (h : step tasks = some (execs, newTasks)) :
    newTasks.length < tasks.length := by
  cases hM : max_intensity_interval (get_intervals tasks) with
  | none => unfold step at h; rw [hM] at h; cases h
  | some M =>
      rw [step_eq hM] at h
      split_ifs at h
      cases hcut : cutRemaining tasks M.start M.stop with
      | none => rw [hcut] at h; cases h
      | some nt =>
          rw [hcut] at h
          cases h
          have hMne := max_interval_tasks_ne_nil hv hne hM
          have hMtasks := (mem_get_intervals_sound (max_intensity_interval_mem hM)).2
          obtain ⟨x, hxM⟩ := List.exists_mem_of_ne_nil M.tasks hMne
          rw [hMtasks] at hxM
          have hxt : x ∈ tasks := List.mem_of_mem_filter hxM
          have hpx : containedIn M.start M.stop x = true := (List.mem_filter.mp hxM).2
          unfold cutRemaining at hcut
          have hlen := cutAll_length hcut
          rw [hlen]
          exact length_filter_not_lt hxt hpx

/-! ### The driver loop -/

theorem calcAux_isSome :
    ∀ (n : Nat) (tasks : List Task) (acc : List Execution),
      (∀ t ∈ tasks, validTask t) → tasks.length ≤ n →
      (calcAux n tasks acc).isSome := by
  intro n
  induction n with
  | zero =>
      intro tasks acc _ hlen
      have : tasks = [] := List.length_eq_zero.mp (Nat.le_zero.mp hlen)
      subst this
      rfl
  | succ n ih =>
      intro tasks acc hv hlen
      cases tasks with
      | nil => rfl
      | cons t ts =>
          have hne : t :: ts ≠ [] := by simp
          obtain ⟨pr, hstep⟩ := Option.isSome_iff_exists.mp (step_isSome hv hne)
          obtain ⟨execs, newTasks⟩ := pr
          unfold calcAux
          rw [hstep]
          apply ih
          · exact step_preserves_valid hv hstep
          · have hlt := step_shrinks hv hne hstep
            omega

theorem calcAux_keys :
    ∀ (n : Nat) (tasks : List Task) (acc : List Execution) (res : List Execution),
      calcAux n tasks acc = some res →
      List.Perm (res.map execKey) (acc.map execKey ++ tasks.map taskKey) := by
  intro n
  induction n with
  | zero =>
      intro tasks acc res h
      cases tasks with
      | nil =>
          cases h
          simp
      | cons t ts => cases h
  | succ n ih =>
      intro tasks acc res h
      cases tasks with
      | nil =>
          cases h
          simp
      | cons t ts =>
          unfold calcAux at h
          cases hstep : step (t :: ts) with
          | none => rw [hstep] at h; cases h
          | some pr =>
              obtain ⟨execs, newTasks⟩ := pr
              rw [hstep] at h
              have hrec := ih newTasks (acc ++ execs) res h
              have hkeys := step_keys hstep
              rw [List.map_append] at hrec
              have hstep2 : List.Perm
                  (acc.map execKey ++ (execs.map execKey ++ newTasks.map taskKey))
                  (acc.map execKey ++ (t :: ts).map taskKey) :=
                hkeys.append_left (acc.map execKey)
              refine hrec.trans ?_
              rw [List.append_assoc] at *
              exact hstep2

instance : IsTotal Execution (fun a b => a.start ≤ b.start) :=
  ⟨fun a b => le_total a.start b.start⟩

instance : IsTrans Execution (fun a b => a.start ≤ b.start) :=
  ⟨fun _ _ _ h h2 => le_trans h h2⟩

theorem calc_scheduling_eq {tasks : List Task} {execs : List Execution}
    (h : calc_scheduling tasks = some execs) :
    ∃ res, calcAux tasks.length tasks [] = some res ∧
      execs = res.insertionSort (fun a b => a.start ≤ b.start) := by
  unfold calc_scheduling at h
  cases hres : calcAux tasks.length tasks [] with
  | none => rw [hres] at h; cases h
  | some res =>
      rw [hres] at h
      cases h
      exact ⟨res, rfl, rfl⟩

/-- Any successful run delivers, as a multiset, exactly one Execution
per input task, whose duration times frequency is that task's workload. -/
theorem calc_scheduling_keys {tasks : List Task} {execs : List Execution}
    (h : calc_scheduling tasks = some execs) :
    List.Perm (execs.map execKey) (tasks.map taskKey) := by
  obtain ⟨res, hres, hsort⟩ := calc_scheduling_eq h
  have h1 : List.Perm (execs.map execKey) (res.map execKey) := by
    rw [hsort]
    exact (List.perm_insertionSort _ _).map execKey
  have h2 := calcAux_keys _ _ _ _ hres
  simpa using h1.trans h2

/-! ### The claims -/

/-- C5: the fall-through `raise` of `Task.cut` is unreachable during
`calc_scheduling`: the cut phase of each loop iteration
(`cutRemaining`, applied after the tasks contained in the critical
interval have been removed from the working set) always succeeds,
because every surviving task is outside the containment region that
alone reaches the fall-through branch. -/
theorem cut_fallthrough_unreachable (tasks : List Task) (cstart cend : ℚ) :
    (cutRemaining tasks cstart cend).isSome :=
  cutRemaining_isSome tasks cstart cend

/-- C6: on a valid input, `calc_scheduling` terminates with a result:
the candidate list is never empty while tasks remain, the maximum
intensity interval contains at least one task, and each iteration
strictly shrinks the working set. -/
theorem calc_scheduling_terminates (tasks : List Task)
    (hv : ∀ t ∈ tasks, validTask t) :
    (calc_scheduling tasks).isSome := by
  unfold calc_scheduling
  obtain ⟨res, hres⟩ := Option.isSome_iff_exists.mp
    (calcAux_isSome tasks.length tasks [] hv (le_refl _))
  rw [hres]
  rfl

/-- Witness for C6 at the single task `(7, 0, 10, 5)`. -/
theorem calc_scheduling_terminates_witness :
    (calc_scheduling [⟨7, 0, 10, 5, 0⟩]).isSome :=
  calc_scheduling_terminates [⟨7, 0, 10, 5, 0⟩] (by decide)

/-- C9: cutting a task with a strict window `release < dead` by a
nondegenerate interval yields a task whose window is again strict:
no cut produces a zero-width window. -/
theorem cut_preserves_strict_window (t t2 : Task) (cstart cend : ℚ)
    (_hse : cstart < cend) (hw : t.release < t.dead)
    (h : t.cut cstart cend = some t2) :
    t2.release < t2.dead :=
  cut_preserves_window hw h

/-- Witness for C9: cutting `(release 0, dead 3)` by `[1, 2)` gives
`(release 0, dead 2)`, still a strict window. -/
theorem cut_preserves_strict_window_witness :
    (⟨0, 0, 2, 1, 0⟩ : Task).release < (⟨0, 0, 2, 1, 0⟩ : Task).dead :=
  cut_preserves_strict_window ⟨0, 0, 3, 1, 0⟩ ⟨0, 0, 2, 1, 0⟩ 1 2
    (by norm_num) (by norm_num) (by norm_num [Task.cut])

/-- C10: the empty task list yields the empty schedule. -/
theorem calc_scheduling_nil : calc_scheduling [] = some [] := rfl

/-- C2: for every run that returns a schedule, the multiset of pairs
(identifier, segment duration times frequency) of the Executions equals
the multiset of pairs (identifier, workload) of the input tasks: the
Execution produced for each task conserves exactly that task's
workload, in exact rational arithmetic. -/
theorem work_conservation (tasks : List Task) (execs : List Execution)
    (h : calc_scheduling tasks = some execs) :
    List.Perm (execs.map execKey) (tasks.map taskKey) :=
  calc_scheduling_keys h

/-- Witness for C2 at the single task `(7, 0, 10, 5)`, scheduled as one
Execution of duration `10` at frequency `1/2`. -/
theorem work_conservation_witness :
    List.Perm (List.map execKey [⟨7, 0, 10, 1/2⟩])
      (List.map taskKey [⟨7, 0, 10, 5, 0⟩]) :=
  work_conservation [⟨7, 0, 10, 5, 0⟩] [⟨7, 0, 10, 1/2⟩] (by
    norm_num [calc_scheduling, calcAux, step, get_intervals, max_intensity_interval,
      cutRemaining, cutAll, assignExecs, containedIn, Interval.intensity,
      List.dedup, List.insertionSort, List.orderedInsert,
      List.filterMap_cons, List.filterMap_nil])

/-- C7: every run that returns a schedule emits, as a multiset, exactly
one Execution per input task: no task is dropped and none is scheduled
twice. -/
theorem each_task_scheduled_exactly_once (tasks : List Task) (execs : List Execution)
    (h : calc_scheduling tasks = some execs) :
    List.Perm (execs.map (fun e => e.nr)) (tasks.map (fun t => t.nr)) := by
  have hk := calc_scheduling_keys h
  have hf := hk.map Prod.fst
  simpa [execKey, taskKey, List.map_map, Function.comp] using hf

/-- Witness for C7 at the single task `(7, 0, 10, 5)`. -/
theorem each_task_scheduled_exactly_once_witness :
    List.Perm (List.map (fun e => e.nr) ([⟨7, 0, 10, 1/2⟩] : List Execution))
      (List.map (fun t => t.nr) ([⟨7, 0, 10, 5, 0⟩] : List Task)) :=
  each_task_scheduled_exactly_once [⟨7, 0, 10, 5, 0⟩] [⟨7, 0, 10, 1/2⟩] (by
    norm_num [calc_scheduling, calcAux, step, get_intervals, max_intensity_interval,
      cutRemaining, cutAll, assignExecs, containedIn, Interval.intensity,
      List.dedup, List.insertionSort, List.orderedInsert,
      List.filterMap_cons, List.filterMap_nil])

/-- C8: the returned schedule is sorted by the `start` field,
ascending. -/
theorem scheduling_sorted_by_start (tasks : List Task) (execs : List Execution)
    (h : calc_scheduling tasks = some execs) :
    List.Sorted (fun a b => a.start ≤ b.start) execs := by
  obtain ⟨res, _hres, hsort⟩ := calc_scheduling_eq h
  rw [hsort]
  exact List.sorted_insertionSort _ _

/-- Witness for C8 at the single task `(7, 0, 10, 5)`. -/
theorem scheduling_sorted_by_start_witness :
    List.Sorted (fun a b : Execution => a.start ≤ b.start) [⟨7, 0, 10, 1/2⟩] :=
  scheduling_sorted_by_start [⟨7, 0, 10, 5, 0⟩] [⟨7, 0, 10, 1/2⟩] (by
    norm_num [calc_scheduling, calcAux, step, get_intervals, max_intensity_interval,
      cutRemaining, cutAll, assignExecs, containedIn, Interval.intensity,
      List.dedup, List.insertionSort, List.orderedInsert,
      List.filterMap_cons, List.filterMap_nil])

/-- C1 (bug evidence): on the valid input
`[(nr 0, release 0, dead 5, c 100), (nr 1, release 4, dead 9/2, c 1)]`
the code returns an Execution for task `1` that starts at `0`, before
that task's release time `4` (its whole segment `[0, 5/101)` lies
before the release): the greedy assignment packs the critical
interval's tasks contiguously from the interval start in EDF order and
ignores release times inside the interval. -/
theorem release_violation_on_concrete_input :
    ∃ execs, calc_scheduling [⟨0, 0, 5, 100, 0⟩, ⟨1, 4, 9/2, 1, 0⟩] = some execs ∧
      ∃ e ∈ execs, e.nr = (⟨1, 4, 9/2, 1, 0⟩ : Task).nr ∧
        e.start < (⟨1, 4, 9/2, 1, 0⟩ : Task).release := by
  refine ⟨[⟨1, 0, 5/101, 101/5⟩, ⟨0, 5/101, 5, 101/5⟩], ?_, ?_⟩
  · norm_num [calc_scheduling, calcAux, step, get_intervals, max_intensity_interval,
      cutRemaining, cutAll, assignExecs, containedIn, Interval.intensity,
      List.dedup, List.insertionSort, List.orderedInsert,
      List.filterMap_cons, List.filterMap_nil]
  · refine ⟨⟨1, 0, 5/101, 101/5⟩, by simp, rfl, by norm_num⟩

/-- C3 (counterexample): the code performs no input validation: the
invalid task `(nr 0, release 0, dead 10, c = -1)` (workload `≤ 0`) is
not rejected; `calc_scheduling` returns a complete schedule with one
Execution for it. -/
theorem invalid_workload_is_scheduled :
    (⟨0, 0, 10, -1, 0⟩ : Task).c ≤ 0 ∧
    calc_scheduling [⟨0, 0, 10, -1, 0⟩] = some [⟨0, 0, 10, -(1/10)⟩] := by
  refine ⟨by norm_num, ?_⟩
  norm_num [calc_scheduling, calcAux, step, get_intervals, max_intensity_interval,
    cutRemaining, cutAll, assignExecs, containedIn, Interval.intensity,
    List.dedup, List.insertionSort, List.orderedInsert,
    List.filterMap_cons, List.filterMap_nil]

/-- C3 (amended): invalid inputs are not rejected at input time; when
a run on them does fail, it fails late, inside the scheduling loop,
with no Execution emitted.  Two such late failure modes, both proved
here: a single task with `release ≥ deadline` contributes no candidate
interval, so the run aborts on Python's `max` over an empty sequence;
and a task set whose critical interval's workloads sum to zero aborts
on the `ZeroDivisionError` in the assignment loop, as for
`[(0, 0, 10, c=1), (1, 0, 10, c=-1)]`. -/
theorem no_input_time_validation :
    (∀ t : Task, t.dead ≤ t.release → calc_scheduling [t] = none) ∧
    calc_scheduling [⟨0, 0, 10, 1, 0⟩, ⟨1, 0, 10, -1, 0⟩] = none := by
  constructor
  · intro t h
    have h1 : get_intervals [t] = [] := by
      unfold get_intervals
      simp [List.dedup, List.filterMap_cons, List.filterMap_nil, not_lt.mpr h]
    have h2 : step [t] = none := by
      unfold step
      rw [h1]
      rfl
    have h3 : calcAux 1 [t] [] = none := by
      unfold calcAux
      rw [h2]
    unfold calc_scheduling
    simp [h3]
  · norm_num [calc_scheduling, calcAux, step, get_intervals, max_intensity_interval,
      cutRemaining, cutAll, assignExecs, containedIn, Interval.intensity,
      List.dedup, List.insertionSort, List.orderedInsert,
      List.filterMap_cons, List.filterMap_nil, List.cons_ne_nil]

/-- Witness for the amended C3 at the degenerate task
`(0, 5, 5, 1)`. -/
theorem no_input_time_validation_witness :
    calc_scheduling [⟨0, 5, 5, 1, 0⟩] = none :=
  no_input_time_validation.1 ⟨0, 5, 5, 1, 0⟩ (by norm_num)

/-- C4 (counterexample): a task contained in the cut interval (here
`(release 0, dead 1)` cut by `[0, 1)`, a nondegenerate interval)
matches none of the five rows of the spec's cutting table, and
`Task.cut` raises (returns `none`) instead of applying a row. -/
theorem contained_task_matches_no_cut_case :
    (0 : ℚ) < 1 ∧
    Task.cut ⟨0, 0, 1, 1, 0⟩ 0 1 = none ∧
    ∀ k : Fin 5, ¬ cutSpecCond k ⟨0, 0, 1, 1, 0⟩ 0 1 := by
  refine ⟨by norm_num, by norm_num [Task.cut], ?_⟩
  intro k
  fin_cases k <;> simp only [cutSpecCond] <;> norm_num

/-- C4 (amended): for every task with a strict window that is not
contained in the (nondegenerate) cut interval, exactly one of the five
rows of the spec's cutting table applies, and `Task.cut` performs
exactly that row's field updates (the workload is never changed). -/
theorem cut_implements_spec_table (t : Task) (cstart cend : ℚ)
    (hse : cstart < cend) (hw : t.release < t.dead)
    (hnc : ¬(t.release ≥ cstart ∧ t.dead ≤ cend)) :
    ∃ k : Fin 5, cutSpecCond k t cstart cend ∧
      (∀ j : Fin 5, cutSpecCond j t cstart cend → j = k) ∧
      t.cut cstart cend = some (cutSpecAction k t cstart cend) := by
  unfold Task.cut
  split_ifs with h1 h2 h3 h4 h5
  · -- task after interval: row 0
    refine ⟨0, h1, ?_, rfl⟩
    intro j hj
    fin_cases j
    · rfl
    · exfalso; simp only [cutSpecCond] at hj; linarith
    · exfalso; simp only [cutSpecCond] at hj; linarith [hj.1]
    · exfalso; simp only [cutSpecCond] at hj; linarith [hj.2.1]
    · exfalso; simp only [cutSpecCond] at hj; linarith [hj.1]
  · -- task before interval: row 1
    refine ⟨1, h2, ?_, rfl⟩
    intro j hj
    fin_cases j
    · exfalso; simp only [cutSpecCond] at hj; linarith
    · rfl
    · exfalso; simp only [cutSpecCond] at hj; linarith [hj.2]
    · exfalso; simp only [cutSpecCond] at hj; linarith [hj.1]
    · exfalso; simp only [cutSpecCond] at hj; linarith [hj.2.1]
  · -- interval inside task: row 2
    refine ⟨2, h3, ?_, rfl⟩
    intro j hj
    fin_cases j
    · exfalso; simp only [cutSpecCond] at hj; linarith [h3.1]
    · exfalso; simp only [cutSpecCond] at hj; linarith [h3.2]
    · rfl
    · exfalso; simp only [cutSpecCond] at hj; linarith [hj.2.2, h3.2]
    · exfalso; simp only [cutSpecCond] at hj; linarith [hj.2.2, h3.1]
  · -- task covers beginning of interval: row 3
    have hde : t.dead ≤ cend := by
      by_contra hgt
      exact h3 ⟨h4.2, lt_of_not_le hgt⟩
    refine ⟨3, ⟨h4.1, h4.2, hde⟩, ?_, rfl⟩
    intro j hj
    fin_cases j
    · exfalso; simp only [cutSpecCond] at hj; linarith [h4.2]
    · exfalso; simp only [cutSpecCond] at hj; linarith [h4.1]
    · exfalso; simp only [cutSpecCond] at hj; linarith [hj.2]
    · rfl
    · exfalso; simp only [cutSpecCond] at hj; linarith [hj.2.2, h4.2]
  · -- task covers ending of interval: row 4
    have hrs : t.release ≥ cstart := by
      by_contra hlt
      exact h4 ⟨by linarith [h5.2], lt_of_not_le hlt⟩
    refine ⟨4, ⟨h5.1, h5.2, hrs⟩, ?_, rfl⟩
    intro j hj
    fin_cases j
    · exfalso; simp only [cutSpecCond] at hj; linarith [h5.1]
    · exfalso; simp only [cutSpecCond] at hj; linarith [h5.2]
    · exfalso; simp only [cutSpecCond] at hj; linarith [hj.1]
    · exfalso; simp only [cutSpecCond] at hj; linarith [hj.2.1]
    · rfl
  · -- all guards failed: the task is contained, contradicting hnc
    exfalso
    apply hnc
    have hr1 : t.release < cend := lt_of_not_le h1
    have hd2 : cstart < t.dead := lt_of_not_le h2
    constructor
    · by_contra hr
      exact h4 ⟨hd2, lt_of_not_le hr⟩
    · by_contra hd
      exact h5 ⟨hr1, lt_of_not_le hd⟩

/-- Witness for the amended C4: the task `(release 0, dead 3)` cut by
`[1, 2)` falls in row 2 of the table (interval inside task). -/
theorem cut_implements_spec_table_witness :
    ∃ k : Fin 5, cutSpecCond k ⟨0, 0, 3, 1, 0⟩ 1 2 ∧
      (∀ j : Fin 5, cutSpecCond j ⟨0, 0, 3, 1, 0⟩ 1 2 → j = k) ∧
      Task.cut ⟨0, 0, 3, 1, 0⟩ 1 2 = some (cutSpecAction k ⟨0, 0, 3, 1, 0⟩ 1 2) :=
  cut_implements_spec_table ⟨0, 0, 3, 1, 0⟩ 1 2 (by norm_num) (by norm_num)
    (by norm_num)

end YDS
